import Mathlib

/-!
Verification of the mixin merge engine of `packages/min/src/mixin.ts`.

The embedding models the module's value space directly: `JsVal` is the
fragment of JavaScript values the merge engine inspects (`undefined`,
`null`, booleans, numbers, strings); objects with string keys are
association lists in insertion order, matching `Object.keys` iteration
order for string keys; functions are either the engine's no-op `noop` or
abstract handlers `Fn.h i` whose behaviour is supplied by an environment
`Nat → List JsVal → JsVal`.  Stateful parts (the dispatcher closure's
`methodsList`, which `Array.prototype.reverse` mutates in place) are
modelled by explicit state passing.
-/

namespace MixinSpec

/-- The fragment of JavaScript values the merge engine distinguishes. -/
inductive JsVal where
  | undef : JsVal
  | null : JsVal
  | bool : Bool → JsVal
  | num : Int → JsVal
  | str : String → JsVal
deriving DecidableEq, Repr

/-- JavaScript truthiness on the modelled value fragment. -/
def jsTruthy : JsVal → Bool
  | JsVal.undef => false
  | JsVal.null => false
  | JsVal.bool b => b
  | JsVal.num n => n != 0
  | JsVal.str s => s != ""

/-- A function value: the module's `noop`, or an abstract handler
identified by an id whose behaviour an environment supplies. -/
inductive Fn where
  | noop : Fn
  | h : Nat → Fn
deriving DecidableEq, Repr

/-- Interpretation of a function value: `noop` returns `undefined`
(`function () {}`), a handler `h i` behaves as the environment says. -/
def applyFn (env : Nat → List JsVal → JsVal) : Fn → List JsVal → JsVal
  | Fn.noop, _ => JsVal.undef
  | Fn.h i, args => env i args

/-! ## String-keyed objects as association lists

`Object.keys` on a plain JS object with string keys yields the keys in
insertion order; property read and property assignment are `lookupA` and
`setA` (assignment overwrites an existing key in place, otherwise appends
the key at the end, exactly as JS property order behaves). -/

/-- Property read on a string-keyed object: the value at `k`, if present. -/
def lookupA {α : Type} : List (String × α) → String → Option α
  | [], _ => none
  | p :: rest, k => if p.1 = k then some p.2 else lookupA rest k

/-- The key list of a string-keyed object (insertion order). -/
def keysA {α : Type} (l : List (String × α)) : List String :=
  l.map (fun p => p.1)

/-- Property assignment: overwrite the key's entry in place, else append.
(On a JS object keys are unique, so overwriting the first occurrence is
exactly JS assignment.) -/
def setA {α : Type} : List (String × α) → String → α → List (String × α)
  | [], k, v => [(k, v)]
  | p :: rest, k, v => if p.1 = k then (k, v) :: rest else p :: setA rest k v

theorem lookupA_eq_none_of_not_mem {α : Type} (l : List (String × α)) (k : String)
    (h : k ∉ keysA l) : lookupA l k = none := by
  induction l with
  | nil => rfl
  | cons p rest ih =>
    simp only [keysA, List.map_cons, List.mem_cons, not_or] at h
    rw [lookupA, if_neg (fun hh => h.1 hh.symm), ih h.2]

theorem mem_keysA_of_lookupA_some {α : Type} (l : List (String × α)) (k : String) {v : α}
    (h : lookupA l k = some v) : k ∈ keysA l := by
  induction l with
  | nil => simp [lookupA] at h
  | cons p rest ih =>
    by_cases hp : p.1 = k
    · simp [keysA, hp]
    · rw [lookupA, if_neg hp] at h
      simp only [keysA, List.map_cons, List.mem_cons]
      exact Or.inr (ih h)

theorem lookupA_setA_self {α : Type} (l : List (String × α)) (k : String) (v : α) :
    lookupA (setA l k v) k = some v := by
  induction l with
  | nil => simp [setA, lookupA]
  | cons p rest ih =>
    by_cases hp : p.1 = k
    · simp [setA, hp, lookupA]
    · simp [setA, hp, lookupA, ih]

theorem lookupA_setA_ne {α : Type} (l : List (String × α)) (k k' : String) (v : α)
    (h : k' ≠ k) : lookupA (setA l k v) k' = lookupA l k' := by
  induction l with
  | nil => simp [setA, lookupA, (Ne.symm h : k ≠ k')]
  | cons p rest ih =>
    by_cases hp : p.1 = k
    · rw [setA, if_pos hp, lookupA, if_neg (fun hh : k = k' => h hh.symm),
        lookupA, if_neg (fun hh : p.1 = k' => h (hp ▸ hh).symm)]
    · rw [setA, if_neg hp]
      by_cases hpk' : p.1 = k'
      · rw [lookupA, if_pos hpk', lookupA, if_pos hpk']
      · rw [lookupA, if_neg hpk', lookupA, if_neg hpk', ih]

theorem keysA_setA {α : Type} (l : List (String × α)) (k : String) (v : α) :
    keysA (setA l k v) = if k ∈ keysA l then keysA l else keysA l ++ [k] := by
  induction l with
  | nil => simp [setA, keysA]
  | cons p rest ih =>
    by_cases hp : p.1 = k
    · simp [setA, hp, keysA]
    · rw [setA, if_neg hp]
      have h1 : keysA (p :: setA rest k v) = p.1 :: keysA (setA rest k v) := rfl
      have h2 : keysA (p :: rest) = p.1 :: keysA rest := rfl
      rw [h1, h2, ih]
      by_cases hmem : k ∈ keysA rest
      · simp [hmem, List.mem_cons]
      · simp only [hmem, List.mem_cons, if_neg hmem, or_false, if_false]
        rw [if_neg (fun hh : k = p.1 => hp hh.symm), List.cons_append]

theorem mem_keysA_setA {α : Type} (l : List (String × α)) (k m : String) (v : α) :
    m ∈ keysA (setA l k v) ↔ m ∈ keysA l ∨ m = k := by
  rw [keysA_setA]
  by_cases hmem : k ∈ keysA l
  · simp only [if_pos hmem]
    constructor
    · exact Or.inl
    · rintro (hm | rfl)
      · exact hm
      · exact hmem
  · simp [if_neg hmem]

theorem nodup_keysA_setA {α : Type} (l : List (String × α)) (k : String) (v : α)
    (h : (keysA l).Nodup) : (keysA (setA l k v)).Nodup := by
  rw [keysA_setA]
  by_cases hmem : k ∈ keysA l
  · simpa [hmem] using h
  · rw [if_neg hmem]
    exact h.append (List.nodup_singleton k) (by simp [List.disjoint_singleton, hmem])

/-! ## Property values of mixins and of the page configuration

A property of a mixin's `methods` mapping, of a mixin itself, or of the
page configuration holds either a single function, an array of functions,
or any other value.  Two further constructors are engine-internal: the
lifecycle dispatcher that `mixMethods` installs (a closure over its
`methodsList` array, kept here as explicit state), and the `onLoad`
method of the `OnLoad` class that the entry point installs.  Raw input
configurations contain only `fn`, `arr` and `other` values. -/
inductive MVal where
  | fn : Fn → MVal
  | arr : List Fn → MVal
  | dispatcher : List Fn → MVal
  | onLoadSeq : MVal
  | other : JsVal → MVal
deriving DecidableEq, Repr

/-- `typeof v === 'function'` on a property value: functions are `fn`
values, the installed dispatcher closure and the installed `OnLoad`
method; arrays and all other values are not functions. -/
def mvalIsFunction : MVal → Bool
  | MVal.fn _ => true
  | MVal.dispatcher _ => true
  | MVal.onLoadSeq => true
  | _ => false

/-- `v == null` (loose equality): true exactly for `null` and `undefined`. -/
def mvalIsNull : MVal → Bool
  | MVal.other JsVal.null => true
  | MVal.other JsVal.undef => true
  | _ => false

/-- JS truthiness of a property value: functions and arrays are objects,
hence truthy; other values follow `jsTruthy`. -/
def mvalTruthy : MVal → Bool
  | MVal.other v => jsTruthy v
  | _ => true

/-- Reading a property of an object returns `undefined` when the key is
absent. -/
def readA (l : List (String × MVal)) (k : String) : MVal :=
  (lookupA l k).getD (MVal.other JsVal.undef)

/-- `data` objects map keys to plain values. -/
abbrev Data := List (String × JsVal)

/-- Reading a `data` property: `undefined` when absent. -/
def getPropD (d : Data) (k : String) : JsVal :=
  (lookupA d k).getD JsVal.undef

/-- A mixin: a `data` mapping, a `methods` mapping, and its remaining
top-level properties (where lifecycle contributions live). -/
structure Mixin where
  data : Data
  methods : List (String × MVal)
  props : List (String × MVal)
deriving DecidableEq, Repr

/-- The page configuration: its `data`, its string-keyed function and
lifecycle properties, and the ordered `mixins` list. -/
structure PageConf where
  data : Data
  props : List (String × MVal)
  mixins : List Mixin
deriving DecidableEq, Repr

/-- `const PAGE_EVENT = [...]`: the recognized page lifecycle event names. -/
def PAGE_EVENT : List String :=
  ["onLoad", "onReady", "onShow", "onHide", "onUnload",
   "onPullDownRefresh", "onReachBottom", "onShareAppMessage"]

/-- `const APP_EVENT = [...]` (declared by the module, unused by the merge). -/
def APP_EVENT : List String := ["onLaunch", "onShow", "onHide", "onError"]

/-! ## FunctionComposer

`compose (...funcs)` from the source (the redux-style composer): an empty
list yields `(arg) => arg` (a one-parameter identity, modelled on a JS
argument list as taking the first argument); a one-element list yields
that very function; otherwise the last function receives the whole
argument list and `rest.reduceRight((composed, f) => f(composed), last(...args))`
feeds each earlier function the return value of the function after it. -/
def compose (funcs : List (List JsVal → JsVal)) : List JsVal → JsVal :=
  match funcs with
  | [] => fun args => args.headD JsVal.undef
  | [f] => f
  | f :: g :: rest =>
    fun args =>
      (f :: g :: rest).dropLast.foldr (fun fc composed => fc [composed])
        (((f :: g :: rest).getLastD (fun a => a.headD JsVal.undef)) args)

/-- Modelled from the spec's words (§4.1): `fN(args…)` is evaluated first,
then each earlier element receives as sole argument the return value of
the element one position later, and `f1`'s return value is the result.
Comparison definition for the refinement claim about `compose`. -/
def specRun : List (List JsVal → JsVal) → List JsVal → JsVal
  | [], args => args.headD JsVal.undef
  | [f], args => f args
  | f :: g :: rest, args => f [specRun (g :: rest) args]

/-- The traced composer: `compose` over abstract function values, also
recording each call as (callee, its argument list) in call order.  Same
three branches as `compose`; handler behaviour comes from `env`. -/
def composeTrace (env : Nat → List JsVal → JsVal) (funcs : List Fn) (args : List JsVal) :
    List (Fn × List JsVal) × JsVal :=
  match funcs with
  | [] => ([], args.headD JsVal.undef)
  | [f] => ([(f, args)], applyFn env f args)
  | f :: g :: rest =>
    (f :: g :: rest).dropLast.foldr
      (fun fc acc => (acc.1 ++ [(fc, [acc.2])], applyFn env fc [acc.2]))
      ([((f :: g :: rest).getLastD Fn.noop, args)],
        applyFn env ((f :: g :: rest).getLastD Fn.noop) args)

/-- One invocation of the lifecycle dispatcher installed by `mixMethods`:
`function (...args) { compose(...methodsList.reverse().map(f => f.bind(this)))(...args) }`.
`methodsList.reverse()` reverses the closure's array **in place** and
returns it, so the invocation both runs `compose` over the reversed list
and leaves the reversed list behind as the closure's new state.  The
wrapper has no `return`, so each invocation's own result is `undefined`;
`chain` is the value the inner composed chain produced (and discarded).
`.bind(this)` only fixes the receiver and is invisible to this model. -/
structure InvokeResult where
  state : List Fn
  trace : List (Fn × List JsVal)
  chain : JsVal
  ret : JsVal
deriving DecidableEq, Repr

def invokeDispatcher (env : Nat → List JsVal → JsVal) (st : List Fn) (args : List JsVal) :
    InvokeResult :=
  let rev := st.reverse
  let tv := composeTrace env rev args
  ⟨rev, tv.1, tv.2, JsVal.undef⟩

/-! ## MixinCollector -/

/-- `getMixinData`: walk the mixins in order; for each, copy every key of
its `data` into the accumulator (`ret[key] = data[key]`), so later mixins
overwrite earlier ones. -/
def getMixinData (mixins : List Mixin) : Data :=
  mixins.foldl
    (fun ret m => (keysA m.data).foldl (fun r k => setA r k (getPropD m.data k)) ret)
    []

/-- The `methods` pass of one mixin in `getMixinMethods`: every key of the
mixin's `methods` mapping whose value is a function and whose key is not
`onLoad` is recorded, overwriting any earlier entry. -/
def methodsPass (m : Mixin) (ret : List (String × MVal)) : List (String × MVal) :=
  (keysA m.methods).foldl
    (fun r k =>
      match lookupA m.methods k with
      | some (MVal.fn f) => if k = "onLoad" then r else setA r k (MVal.fn f)
      | _ => r)
    ret

/-- The lifecycle pass of one mixin in `getMixinMethods`: for each
recognized lifecycle name except `onLoad`, a callable own-property of the
mixin is appended to the accumulated array for that name (`[...value, method]`),
or starts a fresh one-element array when the accumulated value is absent
or not an array. -/
def lifecyclePass (m : Mixin) (ret : List (String × MVal)) : List (String × MVal) :=
  PAGE_EVENT.foldl
    (fun r k =>
      match lookupA m.props k with
      | some (MVal.fn f) =>
        if k = "onLoad" then r
        else
          match lookupA r k with
          | some (MVal.arr fs) => setA r k (MVal.arr (fs ++ [f]))
          | _ => setA r k (MVal.arr [f])
      | _ => r)
    ret

/-- `getMixinMethods`: both passes, mixin by mixin in list order. -/
def getMixinMethods (mixins : List Mixin) : List (String × MVal) :=
  mixins.foldl (fun ret m => lifecyclePass m (methodsPass m ret)) []

/-! ## DataMerger -/

/-- `mixData`: for each key of the collected mixin data, write it into the
page's data only when the page's current value there is `undefined`
(native data has the highest priority). -/
def mixData (mixinData nativeData : Data) : Data :=
  (keysA mixinData).foldl
    (fun nd k =>
      if getPropD nd k ≠ JsVal.undef then nd
      else setA nd k (getPropD mixinData k))
    nativeData

/-! ## MethodMerger -/

/-- One key of `mixMethods`.  A recognized lifecycle name whose collected
value is an array gets the page's own callable (if any) pushed at the end
and a dispatcher closing over that array installed in its place; a
collected value that is not an array is skipped.  Any other name is
assigned only when the page's current value is `== null`. -/
def mmStep (mixinMethods : List (String × MVal)) (pc : PageConf) (k : String) : PageConf :=
  let method := readA mixinMethods k
  if k ∈ PAGE_EVENT then
    match method with
    | MVal.arr methodsList =>
      let withPage :=
        match readA pc.props k with
        | MVal.fn f => methodsList ++ [f]
        | _ => methodsList
      { pc with props := setA pc.props k (MVal.dispatcher withPage) }
    | _ => pc
  else
    if mvalIsNull (readA pc.props k) then { pc with props := setA pc.props k method }
    else pc

/-- `mixMethods`: fold `mmStep` over the collected method keys. -/
def mixMethods (mixinMethods : List (String × MVal)) (pc : PageConf) : PageConf :=
  (keysA mixinMethods).foldl (mmStep mixinMethods) pc

/-! ## LoadSequencer and the entry point -/

/-- Destructuring default `= noop`: replaces exactly `undefined`. -/
def defaultNoop (v : MVal) : MVal :=
  match v with
  | MVal.other JsVal.undef => MVal.fn Fn.noop
  | _ => v

/-- `pageConf.onLoad || noop`: replaces any falsy value. -/
def orNoop (v : MVal) : MVal :=
  if mvalTruthy v then v else MVal.fn Fn.noop

/-- The module's default export.  Destructures `mixins`, `onBeforeLoad`
and `onAfterLoad` (defaulting the two hooks to `noop`), takes
`pageConf.onLoad || noop` as the native load handler and `pageConf.data`
as the native data, collects the mixins, then `Object.assign`s the merged
data, the `OnLoad` sequence as `onLoad`, and the three hook slots onto the
page configuration before running `mixMethods`. -/
def mixinEntry (pc : PageConf) : PageConf :=
  let onBeforeLoadV := defaultNoop (readA pc.props "onBeforeLoad")
  let onAfterLoadV := defaultNoop (readA pc.props "onAfterLoad")
  let onNativeLoadV := orNoop (readA pc.props "onLoad")
  let nativeData := pc.data
  let mixinData := getMixinData pc.mixins
  let mixinMethodsV := getMixinMethods pc.mixins
  let props1 :=
    setA (setA (setA (setA pc.props "onLoad" MVal.onLoadSeq)
      "onBeforeLoad" onBeforeLoadV) "onAfterLoad" onAfterLoadV)
      "onNativeLoad" onNativeLoadV
  mixMethods mixinMethodsV { pc with data := mixData mixinData nativeData, props := props1 }

/-- One invocation of the final configuration's `onLoad` property with a
single argument `opts`, when that property is the installed `OnLoad`
method: `this.onBeforeLoad(opts); this.onNativeLoad(opts); this.onAfterLoad(opts)`,
each read from the receiver at call time and called with the same `opts`
(no return-value threading).  The result is the call trace; `none` models
a TypeError (a slot that is not a plain function) or an `onLoad` property
that is not the installed sequence. -/
def invokeOnLoad (pc : PageConf) (opts : JsVal) : Option (List (Fn × JsVal)) :=
  match readA pc.props "onLoad" with
  | MVal.onLoadSeq =>
    match readA pc.props "onBeforeLoad", readA pc.props "onNativeLoad",
        readA pc.props "onAfterLoad" with
    | MVal.fn b, MVal.fn n, MVal.fn a => some [(b, opts), (n, opts), (a, opts)]
    | _, _, _ => none
  | _ => none

/-! ## Concrete inputs and spec-side comparison definitions -/

/-- The first numeric argument of a call, `0` otherwise (used by concrete
handler environments to make argument threading visible). -/
def numOf : JsVal → Int
  | JsVal.num n => n
  | _ => 0

/-- Handler environment `h i (v) = 100 * i + v` on the first numeric
argument: both call order and threading are visible in its values. -/
def envOrder : Nat → List JsVal → JsVal :=
  fun i args => JsVal.num ((i : Int) * 100 + numOf (args.headD JsVal.undef))

/-- Page contributing `onShow` handlers `h 1` (mixin 1), `h 2` (mixin 2)
and `h 3` (the page's own handler). -/
def pageOrder : PageConf :=
  { data := [],
    props := [("onShow", MVal.fn (Fn.h 3))],
    mixins :=
      [{ data := [], methods := [], props := [("onShow", MVal.fn (Fn.h 1))] },
       { data := [], methods := [], props := [("onShow", MVal.fn (Fn.h 2))] }] }

/-- Like `pageOrder`, with handler ids 11, 12 and 13 (page). -/
def pageRet : PageConf :=
  { data := [],
    props := [("onShow", MVal.fn (Fn.h 13))],
    mixins :=
      [{ data := [], methods := [], props := [("onShow", MVal.fn (Fn.h 11))] },
       { data := [], methods := [], props := [("onShow", MVal.fn (Fn.h 12))] }] }

/-- Handler environment where `h i` always returns `i`. -/
def envRet : Nat → List JsVal → JsVal := fun i _ => JsVal.num (i : Int)

/-- A two-mixin page contributing `onShow` handlers `h i1`, `h i2`, with
the page's own handler `h i3`. -/
def pageTwoMixins (i1 i2 i3 : Nat) : PageConf :=
  { data := [],
    props := [("onShow", MVal.fn (Fn.h i3))],
    mixins :=
      [{ data := [], methods := [], props := [("onShow", MVal.fn (Fn.h i1))] },
       { data := [], methods := [], props := [("onShow", MVal.fn (Fn.h i2))] }] }

/-- Modelled from the spec's words (section 8): the value from the last
mixin in the list that defines the key in its `data`; `undefined` when
none does.  Comparison definition for the data-merge claim. -/
def lastMixinDataValue : List Mixin → String → JsVal
  | [], _ => JsVal.undef
  | m :: rest, k =>
    if ∃ m' ∈ rest, k ∈ keysA m'.data then lastMixinDataValue rest k
    else if k ∈ keysA m.data then getPropD m.data k
    else JsVal.undef

/-- The function the last mixin in the list defines under a key in its
`methods` mapping, if any.  Comparison definition for the common-method
claims (the collector's last-wins pass). -/
def lastMixinMethod : List Mixin → String → Option Fn
  | [], _ => none
  | m :: rest, k =>
    match lastMixinMethod rest k with
    | some f => some f
    | none =>
      match lookupA m.methods k with
      | some (MVal.fn f) => some f
      | _ => none

/-- The page configuration right after the entry point's `Object.assign`:
merged data, the `OnLoad` sequence under `onLoad`, and the three hook
slots (the intermediate state `mixMethods` then runs on). -/
def assignedConf (pc : PageConf) : PageConf :=
  { pc with
    data := mixData (getMixinData pc.mixins) pc.data,
    props := setA (setA (setA (setA pc.props "onLoad" MVal.onLoadSeq)
      "onBeforeLoad" (defaultNoop (readA pc.props "onBeforeLoad")))
      "onAfterLoad" (defaultNoop (readA pc.props "onAfterLoad")))
      "onNativeLoad" (orNoop (readA pc.props "onLoad")) }

/-- Page whose own `onLoad` is `h 51` and whose mixin contributes
`onLoad` both in its `methods` mapping (`h 52`) and top-level (`h 53`). -/
def pageOnLoadW : PageConf :=
  { data := [],
    props := [("onLoad", MVal.fn (Fn.h 51))],
    mixins := [{ data := [],
                 methods := [("onLoad", MVal.fn (Fn.h 52))],
                 props := [("onLoad", MVal.fn (Fn.h 53))] }] }

/-- Page whose mixin contributes `onBeforeLoad`/`onAfterLoad` both as
methods and top-level; the page itself defines neither hook. -/
def pageHooksW : PageConf :=
  { data := [],
    props := [],
    mixins := [{ data := [],
                 methods := [("onBeforeLoad", MVal.fn (Fn.h 61)),
                             ("onAfterLoad", MVal.fn (Fn.h 62))],
                 props := [("onBeforeLoad", MVal.fn (Fn.h 63)),
                           ("onAfterLoad", MVal.fn (Fn.h 64))] }] }

/-- Two mixins whose `methods` both define `hello`; the page defines nothing. -/
def pageFirstLast : PageConf :=
  { data := [], props := [],
    mixins := [{ data := [], methods := [("hello", MVal.fn (Fn.h 1))], props := [] },
               { data := [], methods := [("hello", MVal.fn (Fn.h 2))], props := [] }] }

/-- Two mixins whose `methods` both define `greet`; the page defines nothing. -/
def pageLastWins : PageConf :=
  { data := [], props := [],
    mixins := [{ data := [], methods := [("greet", MVal.fn (Fn.h 21))], props := [] },
               { data := [], methods := [("greet", MVal.fn (Fn.h 22))], props := [] }] }

/-- Two mixins whose `methods` both define `onBeforeLoad`; the page
defines nothing under that name. -/
def pageReserved : PageConf :=
  { data := [], props := [],
    mixins := [{ data := [], methods := [("onBeforeLoad", MVal.fn (Fn.h 31))], props := [] },
               { data := [], methods := [("onBeforeLoad", MVal.fn (Fn.h 32))], props := [] }] }

/-- Two mixins defining `ping` in `methods`; the page defines `ping` too. -/
def pagePingOwn : PageConf :=
  { data := [], props := [("ping", MVal.fn (Fn.h 33))],
    mixins := [{ data := [], methods := [("ping", MVal.fn (Fn.h 34))], props := [] },
               { data := [], methods := [("ping", MVal.fn (Fn.h 35))], props := [] }] }

/-- A mixin contributing `onShow` only inside its `methods` mapping. -/
def pageDropped : PageConf :=
  { data := [], props := [],
    mixins := [{ data := [], methods := [("onShow", MVal.fn (Fn.h 41))], props := [] }] }

/-! ## Allocation-instrumented model (frame property, claim C9)

JS arrays are mutable objects with identity: `methodsList.push(...)` in
`mixMethods` mutates the array the collector stored, and `[...]` /
`[...value, method]` in `getMixinMethods` allocate fresh arrays.  To state
that the engine never mutates a mixin-owned array, this second embedding
of the same functions makes array identity explicit: an `ArrStore` holds
every function-array, values refer to arrays by cell index (`arrRef`),
`getMixinMethodsSt` allocates, and `mixMethodsSt`'s push writes a cell.
Apart from threading the store, each definition mirrors its value-level
counterpart above line by line.  Mixin-owned arrays are the cells that
exist before the entry point runs. -/

structure ArrStore where
  cells : List (List Fn)
deriving DecidableEq, Repr

/-- `[...]` — allocate a fresh array, returning its reference. -/
def allocArr (s : ArrStore) (v : List Fn) : ArrStore × Nat :=
  (⟨s.cells ++ [v]⟩, s.cells.length)

/-- In-place mutation of the array behind `r` (`push` writes through it). -/
def writeArr (s : ArrStore) (r : Nat) (v : List Fn) : ArrStore :=
  ⟨s.cells.set r v⟩

def readArr (s : ArrStore) (r : Nat) : List Fn :=
  s.cells.getD r []

/-- Property values with array identity explicit. -/
inductive SVal where
  | fn : Fn → SVal
  | arrRef : Nat → SVal
  | dispatcherRef : Nat → SVal
  | onLoadSeqS : SVal
  | other : JsVal → SVal
deriving DecidableEq, Repr

structure SMixin where
  data : Data
  methods : List (String × SVal)
  props : List (String × SVal)
deriving DecidableEq, Repr

structure SPageConf where
  data : Data
  props : List (String × SVal)
  mixins : List SMixin
deriving DecidableEq, Repr

def svalIsNull : SVal → Bool
  | SVal.other JsVal.null => true
  | SVal.other JsVal.undef => true
  | _ => false

def svalTruthy : SVal → Bool
  | SVal.other v => jsTruthy v
  | _ => true

def readS (l : List (String × SVal)) (k : String) : SVal :=
  (lookupA l k).getD (SVal.other JsVal.undef)

def defaultNoopS (v : SVal) : SVal :=
  match v with
  | SVal.other JsVal.undef => SVal.fn Fn.noop
  | _ => v

def orNoopS (v : SVal) : SVal :=
  if svalTruthy v then v else SVal.fn Fn.noop

/-- `getMixinData`, over store-model mixins (reads only, no store). -/
def getMixinDataSt (mixins : List SMixin) : Data :=
  mixins.foldl
    (fun ret m => (keysA m.data).foldl (fun r k => setA r k (getPropD m.data k)) ret)
    []

/-- The `methods` pass of `getMixinMethods` (no arrays touched: a mixin
`methods` entry that is an array reference is not a function and is
skipped; only single functions are copied). -/
def methodsPassSt (m : SMixin) (ret : List (String × SVal)) : List (String × SVal) :=
  (keysA m.methods).foldl
    (fun r k =>
      match lookupA m.methods k with
      | some (SVal.fn f) => if k = "onLoad" then r else setA r k (SVal.fn f)
      | _ => r)
    ret

/-- The lifecycle pass of `getMixinMethods`: `ret[key] = [method]` and
`ret[key] = [...value, method]` both allocate fresh arrays. -/
def lifecyclePassSt (m : SMixin) (st : ArrStore × List (String × SVal)) :
    ArrStore × List (String × SVal) :=
  PAGE_EVENT.foldl
    (fun acc k =>
      match lookupA m.props k with
      | some (SVal.fn f) =>
        if k = "onLoad" then acc
        else
          match lookupA acc.2 k with
          | some (SVal.arrRef r) =>
            let al := allocArr acc.1 (readArr acc.1 r ++ [f])
            (al.1, setA acc.2 k (SVal.arrRef al.2))
          | _ =>
            let al := allocArr acc.1 [f]
            (al.1, setA acc.2 k (SVal.arrRef al.2))
      | _ => acc)
    st

def getMixinMethodsSt (s : ArrStore) (mixins : List SMixin) :
    ArrStore × List (String × SVal) :=
  mixins.foldl (fun st m => lifecyclePassSt m (st.1, methodsPassSt m st.2)) (s, [])

/-- One key of `mixMethods`: the lifecycle branch pushes the page's own
callable onto the collected array **through its reference** (the one
store write of the whole engine) and installs a dispatcher closing over
that same reference. -/
def mmStepSt (mm : List (String × SVal)) (st : ArrStore × SPageConf) (k : String) :
    ArrStore × SPageConf :=
  let s := st.1
  let pc := st.2
  let method := readS mm k
  if k ∈ PAGE_EVENT then
    match method with
    | SVal.arrRef r =>
      let s1 :=
        match readS pc.props k with
        | SVal.fn f => writeArr s r (readArr s r ++ [f])
        | _ => s
      (s1, { pc with props := setA pc.props k (SVal.dispatcherRef r) })
    | _ => (s, pc)
  else
    if svalIsNull (readS pc.props k) then (s, { pc with props := setA pc.props k method })
    else (s, pc)

def mixMethodsSt (mm : List (String × SVal)) (st : ArrStore × SPageConf) :
    ArrStore × SPageConf :=
  (keysA mm).foldl (mmStepSt mm) st

/-- The entry point over the store model. -/
def mixinEntrySt (s : ArrStore) (pc : SPageConf) : ArrStore × SPageConf :=
  let cm := getMixinMethodsSt s pc.mixins
  let pc1 : SPageConf :=
    { pc with
      data := mixData (getMixinDataSt pc.mixins) pc.data,
      props := setA (setA (setA (setA pc.props "onLoad" SVal.onLoadSeqS)
        "onBeforeLoad" (defaultNoopS (readS pc.props "onBeforeLoad")))
        "onAfterLoad" (defaultNoopS (readS pc.props "onAfterLoad")))
        "onNativeLoad" (orNoopS (readS pc.props "onLoad")) }
  mixMethodsSt cm.2 (cm.1, pc1)

/-- A store holding one pre-existing (mixin-owned) array. -/
def storeW : ArrStore := ⟨[[Fn.h 9]]⟩

/-- A page whose mixin owns the array in cell 0 (under `methods.tap`) and
contributes a lifecycle handler that makes the collector allocate. -/
def spageW : SPageConf :=
  { data := [], props := [],
    mixins := [{ data := [],
                 methods := [("tap", SVal.arrRef 0)],
                 props := [("onShow", SVal.fn (Fn.h 71))] }] }

/-! ## Theorems about the composer -/

theorem getLastD_cons_irrel {α : Type} (y : α) (l : List α) (d d' : α) :
    (y :: l).getLastD d = (y :: l).getLastD d' := by
  rw [List.getLastD_cons, List.getLastD_cons]

theorem compose_cons₂ (f g : List JsVal → JsVal) (rest : List (List JsVal → JsVal))
    (args : List JsVal) :
    compose (f :: g :: rest) args = f [compose (g :: rest) args] := by
  cases rest with
  | nil => rfl
  | cons r rs =>
    show (f :: g :: r :: rs).dropLast.foldr (fun fc composed => fc [composed])
        (((f :: g :: r :: rs).getLastD (fun a => a.headD JsVal.undef)) args) = _
    rw [List.dropLast_cons₂, List.foldr_cons, List.getLastD_cons]
    show f [(g :: r :: rs).dropLast.foldr (fun fc composed => fc [composed])
        (((r :: rs).getLastD g) args)] = _
    rw [show compose (g :: r :: rs) args = (g :: r :: rs).dropLast.foldr
        (fun fc composed => fc [composed])
        (((g :: r :: rs).getLastD (fun a => a.headD JsVal.undef)) args) from rfl,
      List.getLastD_cons, List.getLastD_cons, List.getLastD_cons]

theorem compose_eq_specRun (funcs : List (List JsVal → JsVal)) (args : List JsVal) :
    compose funcs args = specRun funcs args := by
  induction funcs with
  | nil => rfl
  | cons f tail ih =>
    cases tail with
    | nil => rfl
    | cons g rest =>
      rw [compose_cons₂, specRun, ih]

/-- C7: the function composer returns the single-argument identity for an
empty list, the function itself for a one-element list, and for any list
the composed call agrees with the spec's threading contract `specRun`
(the last element receives the full argument list first, each earlier
element receives the previous return value as its sole argument, and the
first element's return value is the result).  `compose` is total, so no
error is raised for the empty or one-element list. -/
theorem compose_contract :
    (∀ a : JsVal, compose [] [a] = a) ∧
    (∀ f : List JsVal → JsVal, compose [f] = f) ∧
    (∀ (funcs : List (List JsVal → JsVal)) (args : List JsVal),
      compose funcs args = specRun funcs args) :=
  ⟨fun _ => rfl, fun _ => rfl, compose_eq_specRun⟩

/-! ## The lifecycle dispatcher: invocation order (claim C1) -/

/-- C1 (the failing input): the merged `onShow` dispatcher holds
`[h 1, h 2, h 3]` (mixins in order, page last).  Its first invocation runs
`h 1` with the call arguments, then `h 2`, then `h 3` with the threaded
values — as the claim states.  But `methodsList.reverse()` mutates the
closure's array in place, so the second invocation runs the handlers in
the opposite order: the page's handler `h 3` receives the framework
arguments first and `h 1` runs last, contradicting the claim for repeated
invocations. -/
theorem secondInvocation_reverses_handler_order :
    readA (mixinEntry pageOrder).props "onShow" =
      MVal.dispatcher [Fn.h 1, Fn.h 2, Fn.h 3] ∧
    (invokeDispatcher envOrder [Fn.h 1, Fn.h 2, Fn.h 3] [JsVal.num 7]).trace =
      [(Fn.h 1, [JsVal.num 7]), (Fn.h 2, [JsVal.num 107]), (Fn.h 3, [JsVal.num 307])] ∧
    (invokeDispatcher envOrder
        ((invokeDispatcher envOrder [Fn.h 1, Fn.h 2, Fn.h 3] [JsVal.num 7]).state)
        [JsVal.num 7]).trace =
      [(Fn.h 3, [JsVal.num 7]), (Fn.h 2, [JsVal.num 307]), (Fn.h 1, [JsVal.num 507])] :=
  ⟨rfl, rfl, rfl⟩

/-! ## The lifecycle dispatcher: return value (claim C2) -/

/-- C2 is false on the code: the installed dispatcher's wrapper
`function (...args) { compose(...)(...args) }` has no `return`, so the
merged `onShow(args)` returns `undefined`, not the page handler's return
value.  Here the page handler `h 13` returns `13`: the inner chain's
final value is `13`, but the merged call returns `undefined ≠ 13`. -/
theorem merged_call_ret_counterexample :
    readA (mixinEntry pageRet).props "onShow" =
      MVal.dispatcher [Fn.h 11, Fn.h 12, Fn.h 13] ∧
    (invokeDispatcher envRet [Fn.h 11, Fn.h 12, Fn.h 13] [JsVal.num 0]).chain =
      JsVal.num 13 ∧
    (invokeDispatcher envRet [Fn.h 11, Fn.h 12, Fn.h 13] [JsVal.num 0]).ret =
      JsVal.undef ∧
    (invokeDispatcher envRet [Fn.h 11, Fn.h 12, Fn.h 13] [JsVal.num 0]).ret ≠
      JsVal.num 13 :=
  ⟨rfl, rfl, rfl, by decide⟩

/-- C2 amended: on the first invocation of the merged dispatcher the
handlers do thread return values in the claimed order — `h i1` gets the
call arguments, `h i2` gets `h i1`'s return value, the page handler
`h i3` gets `h i2`'s — and `h i3`'s return value is the final value of
the internal composed chain; but the dispatcher discards that value and
the merged call itself returns `undefined`. -/
theorem merged_call_threads_then_discards (env : Nat → List JsVal → JsVal)
    (i1 i2 i3 : Nat) (args : List JsVal) :
    readA (mixinEntry (pageTwoMixins i1 i2 i3)).props "onShow" =
      MVal.dispatcher [Fn.h i1, Fn.h i2, Fn.h i3] ∧
    (invokeDispatcher env [Fn.h i1, Fn.h i2, Fn.h i3] args).trace =
      [(Fn.h i1, args), (Fn.h i2, [env i1 args]),
       (Fn.h i3, [env i2 [env i1 args]])] ∧
    (invokeDispatcher env [Fn.h i1, Fn.h i2, Fn.h i3] args).chain =
      env i3 [env i2 [env i1 args]] ∧
    (invokeDispatcher env [Fn.h i1, Fn.h i2, Fn.h i3] args).ret = JsVal.undef :=
  ⟨rfl, rfl, rfl, rfl⟩

/-! ## Data merge: characterization and claim C3 -/

theorem getPropD_setA_self (d : Data) (k : String) (v : JsVal) :
    getPropD (setA d k v) k = v := by
  rw [getPropD, lookupA_setA_self]; rfl

theorem getPropD_setA_ne (d : Data) (k k' : String) (v : JsVal) (h : k' ≠ k) :
    getPropD (setA d k v) k' = getPropD d k' := by
  rw [getPropD, lookupA_setA_ne d k k' v h]; rfl

theorem getPropD_copyFold (d : Data) (ks : List String) (acc : Data) (k : String) :
    getPropD (ks.foldl (fun r k' => setA r k' (getPropD d k')) acc) k =
      if k ∈ ks then getPropD d k else getPropD acc k := by
  induction ks generalizing acc with
  | nil => simp
  | cons k' rest ih =>
    rw [List.foldl_cons, ih]
    by_cases hmem : k ∈ rest
    · simp [hmem, List.mem_cons]
    · by_cases hk : k = k'
      · subst hk
        simp [hmem, getPropD_setA_self]
      · simp only [hmem, hk, List.mem_cons, or_self, if_false, false_or, if_neg hmem,
          if_neg (by simp [hk, hmem] : ¬(k = k' ∨ k ∈ rest))]
        exact getPropD_setA_ne acc k' k (getPropD d k') hk

theorem mem_keysA_copyFold (d : Data) (ks : List String) (acc : Data) (k : String) :
    k ∈ keysA (ks.foldl (fun r k' => setA r k' (getPropD d k')) acc) ↔
      k ∈ ks ∨ k ∈ keysA acc := by
  induction ks generalizing acc with
  | nil => simp
  | cons k' rest ih =>
    rw [List.foldl_cons, ih]
    rw [mem_keysA_setA]
    constructor
    · rintro (h | (h | h))
      · exact Or.inl (List.mem_cons_of_mem k' h)
      · exact Or.inr h
      · exact Or.inl (h ▸ List.mem_cons_self k' rest)
    · rintro (h | h)
      · rcases List.mem_cons.mp h with h | h
        · exact Or.inr (Or.inr h)
        · exact Or.inl h
      · exact Or.inr (Or.inl h)

theorem getPropD_getMixinData_fold (ms : List Mixin) (acc : Data) (k : String) :
    getPropD (ms.foldl
        (fun ret m => (keysA m.data).foldl (fun r k' => setA r k' (getPropD m.data k')) ret)
        acc) k =
      if ∃ m ∈ ms, k ∈ keysA m.data then lastMixinDataValue ms k else getPropD acc k := by
  induction ms generalizing acc with
  | nil => simp
  | cons m rest ih =>
    rw [List.foldl_cons, ih, getPropD_copyFold, lastMixinDataValue]
    by_cases hrest : ∃ m' ∈ rest, k ∈ keysA m'.data
    · simp [hrest]
    · by_cases hm : k ∈ keysA m.data
      · simp [hrest, hm]
      · simp [hrest, hm]

theorem getPropD_getMixinData (ms : List Mixin) (k : String) :
    getPropD (getMixinData ms) k =
      if ∃ m ∈ ms, k ∈ keysA m.data then lastMixinDataValue ms k else JsVal.undef := by
  rw [getMixinData, getPropD_getMixinData_fold]
  rfl

theorem mem_keysA_getMixinData (ms : List Mixin) (k : String) :
    k ∈ keysA (getMixinData ms) ↔ ∃ m ∈ ms, k ∈ keysA m.data := by
  rw [getMixinData]
  have : ∀ acc : Data, k ∈ keysA (ms.foldl
      (fun ret m => (keysA m.data).foldl (fun r k' => setA r k' (getPropD m.data k')) ret)
      acc) ↔ (∃ m ∈ ms, k ∈ keysA m.data) ∨ k ∈ keysA acc := by
    induction ms with
    | nil => simp
    | cons m rest ih =>
      intro acc
      rw [List.foldl_cons, ih, mem_keysA_copyFold]
      constructor
      · rintro (h | (h | h))
        · obtain ⟨m', hm', hk⟩ := h
          exact Or.inl ⟨m', List.mem_cons_of_mem m hm', hk⟩
        · exact Or.inl ⟨m, List.mem_cons_self m rest, h⟩
        · exact Or.inr h
      · rintro (⟨m', hm', hk⟩ | h)
        · rcases List.mem_cons.mp hm' with h1 | h1
          · exact Or.inr (Or.inl (h1 ▸ hk))
          · exact Or.inl ⟨m', h1, hk⟩
        · exact Or.inr (Or.inr h)
  rw [this]
  simp [keysA]

theorem getPropD_mixData_fold (md : Data) (ks : List String) (nd : Data) (k : String) :
    getPropD (ks.foldl
        (fun r k' => if getPropD r k' ≠ JsVal.undef then r else setA r k' (getPropD md k'))
        nd) k =
      if getPropD nd k ≠ JsVal.undef then getPropD nd k
      else if k ∈ ks then getPropD md k else getPropD nd k := by
  induction ks generalizing nd with
  | nil => simp
  | cons k' rest ih =>
    rw [List.foldl_cons, ih]
    by_cases hk : k = k'
    · subst hk
      by_cases hnd : getPropD nd k ≠ JsVal.undef
      · simp [hnd]
      · push_neg at hnd
        by_cases hmd : getPropD md k ≠ JsVal.undef
        · simp [hnd, hmd, getPropD_setA_self]
        · push_neg at hmd
          simp [hnd, hmd, getPropD_setA_self]
    · by_cases hnd' : getPropD nd k' ≠ JsVal.undef
      · simp only [if_pos hnd']
        by_cases hmem : k ∈ rest <;> simp [List.mem_cons, hk, hmem]
      · simp only [if_neg hnd', getPropD_setA_ne nd k' k (getPropD md k') hk]
        by_cases hmem : k ∈ rest <;> simp [List.mem_cons, hk, hmem]

theorem getPropD_mixData (md nd : Data) (k : String) :
    getPropD (mixData md nd) k =
      if getPropD nd k ≠ JsVal.undef then getPropD nd k
      else if k ∈ keysA md then getPropD md k else getPropD nd k := by
  rw [mixData, getPropD_mixData_fold]

theorem mem_keysA_of_getPropD_ne_undef (d : Data) (k : String)
    (h : getPropD d k ≠ JsVal.undef) : k ∈ keysA d := by
  rcases hl : lookupA d k with _ | v
  · rw [getPropD, hl] at h
    simp at h
  · exact mem_keysA_of_lookupA_some d k hl

theorem mem_keysA_mixData_fold (md : Data) (ks : List String) (nd : Data) (k : String) :
    k ∈ keysA (ks.foldl
        (fun r k' => if getPropD r k' ≠ JsVal.undef then r else setA r k' (getPropD md k'))
        nd) ↔ k ∈ ks ∨ k ∈ keysA nd := by
  induction ks generalizing nd with
  | nil => simp
  | cons k' rest ih =>
    rw [List.foldl_cons, ih]
    by_cases hnd' : getPropD nd k' ≠ JsVal.undef
    · simp only [if_pos hnd']
      constructor
      · rintro (h | h)
        · exact Or.inl (List.mem_cons_of_mem k' h)
        · exact Or.inr h
      · rintro (h | h)
        · rcases List.mem_cons.mp h with h1 | h1
          · exact Or.inr (h1 ▸ mem_keysA_of_getPropD_ne_undef nd k' hnd')
          · exact Or.inl h1
        · exact Or.inr h
    · simp only [if_neg hnd', mem_keysA_setA]
      constructor
      · rintro (h | (h | h))
        · exact Or.inl (List.mem_cons_of_mem k' h)
        · exact Or.inr h
        · exact Or.inl (h ▸ List.mem_cons_self k' rest)
      · rintro (h | h)
        · rcases List.mem_cons.mp h with h1 | h1
          · exact Or.inr (Or.inr h1)
          · exact Or.inl h1
        · exact Or.inr (Or.inl h)

theorem mem_keysA_mixData (md nd : Data) (k : String) :
    k ∈ keysA (mixData md nd) ↔ k ∈ keysA md ∨ k ∈ keysA nd := by
  rw [mixData, mem_keysA_mixData_fold]

theorem mixMethods_data (mm : List (String × MVal)) (pc : PageConf) :
    (mixMethods mm pc).data = pc.data := by
  rw [mixMethods]
  induction keysA mm generalizing pc with
  | nil => rfl
  | cons k rest ih =>
    rw [List.foldl_cons, ih]
    rw [mmStep]
    by_cases hpe : k ∈ PAGE_EVENT
    · simp only [if_pos hpe]
      cases readA mm k <;> rfl
    · simp only [if_neg hpe]
      by_cases hnull : mvalIsNull (readA pc.props k) <;> simp [hnull]

theorem mixinEntry_data (pc : PageConf) :
    (mixinEntry pc).data = mixData (getMixinData pc.mixins) pc.data := by
  rw [mixinEntry, mixMethods_data]

/-- C3: for every page and key, (a) the merged `data` contains every key
present in any mixin's `data` or in the page's own `data`; (b) a key the
page defines with a value other than `undefined` keeps the page's value;
(c) a key absent from the page's `data` but present in some mixin's
`data` gets the value of the last mixin (in list order) that defines it;
(d) a page value that is falsy but not `undefined` still wins. -/
theorem merged_data_contract (pc : PageConf) (k : String) :
    (((∃ m ∈ pc.mixins, k ∈ keysA m.data) ∨ k ∈ keysA pc.data) →
        k ∈ keysA (mixinEntry pc).data) ∧
    (k ∈ keysA pc.data → getPropD pc.data k ≠ JsVal.undef →
        getPropD (mixinEntry pc).data k = getPropD pc.data k) ∧
    (k ∉ keysA pc.data → (∃ m ∈ pc.mixins, k ∈ keysA m.data) →
        getPropD (mixinEntry pc).data k = lastMixinDataValue pc.mixins k) ∧
    (k ∈ keysA pc.data → getPropD pc.data k ≠ JsVal.undef →
      jsTruthy (getPropD pc.data k) = false →
        getPropD (mixinEntry pc).data k = getPropD pc.data k) := by
  have hb : k ∈ keysA pc.data → getPropD pc.data k ≠ JsVal.undef →
      getPropD (mixinEntry pc).data k = getPropD pc.data k := by
    intro _ hne
    rw [mixinEntry_data, getPropD_mixData, if_pos hne]
  refine ⟨?_, hb, ?_, fun hm hne _ => hb hm hne⟩
  · intro h
    rw [mixinEntry_data, mem_keysA_mixData, mem_keysA_getMixinData]
    exact h
  · intro hnp hex
    have hundef : getPropD pc.data k = JsVal.undef := by
      rw [getPropD, lookupA_eq_none_of_not_mem pc.data k hnp]
      rfl
    rw [mixinEntry_data, getPropD_mixData, if_neg (by simp [hundef]),
      if_pos ((mem_keysA_getMixinData pc.mixins k).mpr hex),
      getPropD_getMixinData, if_pos hex]

/-! ## Collector characterization -/

theorem methodsPassFold_lookup (m : Mixin) (ks : List String)
    (ret : List (String × MVal)) (k : String) :
    lookupA (ks.foldl (fun r k' =>
      match lookupA m.methods k' with
      | some (MVal.fn f) => if k' = "onLoad" then r else setA r k' (MVal.fn f)
      | _ => r) ret) k =
    if k ∈ ks then
      (match lookupA m.methods k with
       | some (MVal.fn f) => if k = "onLoad" then lookupA ret k else some (MVal.fn f)
       | _ => lookupA ret k)
    else lookupA ret k := by
  induction ks generalizing ret with
  | nil => simp
  | cons k' rest ih =>
    rw [List.foldl_cons, ih]
    by_cases hk : k = k'
    · subst hk
      cases hmk : lookupA m.methods k with
      | none => simp [hmk, List.mem_cons]
      | some v =>
        cases v with
        | fn f =>
          by_cases hol : k = "onLoad"
          · simp [hmk, hol, List.mem_cons]
          · simp [hmk, hol, List.mem_cons, lookupA_setA_self]
        | arr fs => simp [hmk, List.mem_cons]
        | dispatcher fs => simp [hmk, List.mem_cons]
        | onLoadSeq => simp [hmk, List.mem_cons]
        | other v => simp [hmk, List.mem_cons]
    · have hstep : lookupA ((fun r k'' =>
          match lookupA m.methods k'' with
          | some (MVal.fn f) => if k'' = "onLoad" then r else setA r k'' (MVal.fn f)
          | _ => r) ret k') k = lookupA ret k := by
        cases hmk : lookupA m.methods k' with
        | none => simp [hmk]
        | some v =>
          cases v with
          | fn f =>
            by_cases hol : k' = "onLoad"
            · subst hol
              simp [hmk]
            · simp only [hmk, if_neg hol]
              exact lookupA_setA_ne ret k' k (MVal.fn f) hk
          | arr fs => simp [hmk]
          | dispatcher fs => simp [hmk]
          | onLoadSeq => simp [hmk]
          | other v => simp [hmk]
      rw [hstep]
      simp [List.mem_cons, hk]

theorem methodsPass_lookup (m : Mixin) (ret : List (String × MVal)) (k : String) :
    lookupA (methodsPass m ret) k =
      match lookupA m.methods k with
      | some (MVal.fn f) => if k = "onLoad" then lookupA ret k else some (MVal.fn f)
      | _ => lookupA ret k := by
  rw [methodsPass, methodsPassFold_lookup]
  by_cases hmem : k ∈ keysA m.methods
  · simp [hmem]
  · rw [if_neg hmem, lookupA_eq_none_of_not_mem m.methods k hmem]

theorem lifecyclePassFold_preserve (m : Mixin) (ks : List String)
    (ret : List (String × MVal)) (k : String)
    (hskip : k ∈ ks → k = "onLoad" ∨ ∀ g, lookupA m.props k ≠ some (MVal.fn g)) :
    lookupA (ks.foldl (fun r k' =>
      match lookupA m.props k' with
      | some (MVal.fn f) =>
        if k' = "onLoad" then r
        else
          match lookupA r k' with
          | some (MVal.arr fs) => setA r k' (MVal.arr (fs ++ [f]))
          | _ => setA r k' (MVal.arr [f])
      | _ => r) ret) k = lookupA ret k := by
  induction ks generalizing ret with
  | nil => rfl
  | cons k' rest ih =>
    rw [List.foldl_cons]
    have hstep : lookupA ((fun r k'' =>
        match lookupA m.props k'' with
        | some (MVal.fn f) =>
          if k'' = "onLoad" then r
          else
            match lookupA r k'' with
            | some (MVal.arr fs) => setA r k'' (MVal.arr (fs ++ [f]))
            | _ => setA r k'' (MVal.arr [f])
        | _ => r) ret k') k = lookupA ret k := by
      by_cases hk : k = k'
      · subst hk
        rcases hskip (List.mem_cons_self k rest) with hol | hfn
        · subst hol
          cases hmk : lookupA m.props "onLoad" with
          | none => simp [hmk]
          | some v => cases v <;> simp [hmk]
        · cases hmk : lookupA m.props k with
          | none => simp [hmk]
          | some v =>
            cases v with
            | fn g => exact absurd hmk (hfn g)
            | arr fs => simp [hmk]
            | dispatcher fs => simp [hmk]
            | onLoadSeq => simp [hmk]
            | other w => simp [hmk]
      · cases hmk : lookupA m.props k' with
        | none => simp [hmk]
        | some v =>
          cases v with
          | fn g =>
            by_cases hol : k' = "onLoad"
            · subst hol
              simp [hmk]
            · simp only [hmk, if_neg hol]
              cases hr : lookupA ret k' with
              | none => simp [hr, lookupA_setA_ne ret k' k _ hk]
              | some w =>
                cases w <;> simp [hr, lookupA_setA_ne ret k' k _ hk]
          | arr fs => simp [hmk]
          | dispatcher fs => simp [hmk]
          | onLoadSeq => simp [hmk]
          | other w => simp [hmk]
    exact (ih _ (fun hm => hskip (List.mem_cons_of_mem k' hm))).trans hstep

theorem lifecyclePass_lookup_notEvent (m : Mixin) (ret : List (String × MVal)) (k : String)
    (hk : k ∉ PAGE_EVENT) : lookupA (lifecyclePass m ret) k = lookupA ret k := by
  rw [lifecyclePass]
  exact lifecyclePassFold_preserve m PAGE_EVENT ret k (fun hm => absurd hm hk)

theorem lifecyclePass_lookup_noContrib (m : Mixin) (ret : List (String × MVal)) (k : String)
    (hfn : ∀ g, lookupA m.props k ≠ some (MVal.fn g)) :
    lookupA (lifecyclePass m ret) k = lookupA ret k := by
  rw [lifecyclePass]
  exact lifecyclePassFold_preserve m PAGE_EVENT ret k (fun _ => Or.inr hfn)

theorem lifecyclePass_lookup_onLoad (m : Mixin) (ret : List (String × MVal)) :
    lookupA (lifecyclePass m ret) "onLoad" = lookupA ret "onLoad" := by
  rw [lifecyclePass]
  exact lifecyclePassFold_preserve m PAGE_EVENT ret "onLoad" (fun _ => Or.inl rfl)

theorem onLoad_mem_PAGE_EVENT : "onLoad" ∈ PAGE_EVENT := by decide

theorem ne_onLoad_of_not_event (k : String) (hk : k ∉ PAGE_EVENT) : k ≠ "onLoad" :=
  fun h => hk (h ▸ onLoad_mem_PAGE_EVENT)

theorem getMixinMethods_fold_common (ms : List Mixin) (acc : List (String × MVal))
    (k : String) (hk : k ∉ PAGE_EVENT) :
    lookupA (ms.foldl (fun ret m => lifecyclePass m (methodsPass m ret)) acc) k =
      match lastMixinMethod ms k with
      | some f => some (MVal.fn f)
      | none => lookupA acc k := by
  induction ms generalizing acc with
  | nil => rfl
  | cons m rest ih =>
    rw [List.foldl_cons, ih _]
    have hstep : lookupA (lifecyclePass m (methodsPass m acc)) k =
        match lookupA m.methods k with
        | some (MVal.fn f) => some (MVal.fn f)
        | _ => lookupA acc k := by
      rw [lifecyclePass_lookup_notEvent m _ k hk, methodsPass_lookup]
      cases hmk : lookupA m.methods k with
      | none => rfl
      | some v =>
        cases v with
        | fn f => simp [ne_onLoad_of_not_event k hk]
        | arr fs => rfl
        | dispatcher fs => rfl
        | onLoadSeq => rfl
        | other w => rfl
    rw [lastMixinMethod]
    cases hlast : lastMixinMethod rest k with
    | some f => rfl
    | none =>
      rw [hstep]
      cases hmk : lookupA m.methods k with
      | none => rfl
      | some v => cases v <;> rfl

theorem getMixinMethods_common (ms : List Mixin) (k : String) (hk : k ∉ PAGE_EVENT) :
    lookupA (getMixinMethods ms) k = (lastMixinMethod ms k).map MVal.fn := by
  rw [getMixinMethods, getMixinMethods_fold_common ms [] k hk]
  cases lastMixinMethod ms k <;> rfl

theorem nodup_keysA_methodsPass (m : Mixin) (ret : List (String × MVal))
    (h : (keysA ret).Nodup) : (keysA (methodsPass m ret)).Nodup := by
  rw [methodsPass]
  induction keysA m.methods generalizing ret with
  | nil => exact h
  | cons k' rest ih =>
    rw [List.foldl_cons]
    refine ih _ ?_
    cases hmk : lookupA m.methods k' with
    | none => simpa [hmk] using h
    | some v =>
      cases v with
      | fn f =>
        by_cases hol : k' = "onLoad"
        · simpa [hmk, hol] using h
        · simpa [hmk, hol] using nodup_keysA_setA ret k' (MVal.fn f) h
      | arr fs => simpa [hmk] using h
      | dispatcher fs => simpa [hmk] using h
      | onLoadSeq => simpa [hmk] using h
      | other w => simpa [hmk] using h

theorem nodup_keysA_lifecyclePass (m : Mixin) (ret : List (String × MVal))
    (h : (keysA ret).Nodup) : (keysA (lifecyclePass m ret)).Nodup := by
  rw [lifecyclePass]
  induction PAGE_EVENT generalizing ret with
  | nil => exact h
  | cons k' rest ih =>
    rw [List.foldl_cons]
    refine ih _ ?_
    cases hmk : lookupA m.props k' with
    | none => simpa [hmk] using h
    | some v =>
      cases v with
      | fn f =>
        by_cases hol : k' = "onLoad"
        · simpa [hmk, hol] using h
        · cases hr : lookupA ret k' with
          | none => simpa [hmk, hol, hr] using nodup_keysA_setA ret k' (MVal.arr [f]) h
          | some w =>
            cases w <;> simp only [hmk, hol, hr, if_neg hol] <;>
              exact nodup_keysA_setA ret k' _ h
      | arr fs => simpa [hmk] using h
      | dispatcher fs => simpa [hmk] using h
      | onLoadSeq => simpa [hmk] using h
      | other w => simpa [hmk] using h

theorem nodup_keysA_getMixinMethods (ms : List Mixin) :
    (keysA (getMixinMethods ms)).Nodup := by
  rw [getMixinMethods]
  have : ∀ acc : List (String × MVal), (keysA acc).Nodup →
      (keysA (ms.foldl (fun ret m => lifecyclePass m (methodsPass m ret)) acc)).Nodup := by
    induction ms with
    | nil => exact fun acc h => h
    | cons m rest ih =>
      intro acc h
      rw [List.foldl_cons]
      exact ih _ (nodup_keysA_lifecyclePass m _ (nodup_keysA_methodsPass m acc h))
  exact this [] (by simp [keysA])

/-! ## MethodMerger: per-key fold lemmas -/

theorem lookupA_mmStep_ne (mm : List (String × MVal)) (pc : PageConf) (k k' : String)
    (h : k ≠ k') : lookupA (mmStep mm pc k').props k = lookupA pc.props k := by
  rw [mmStep]
  by_cases hpe : k' ∈ PAGE_EVENT
  · simp only [if_pos hpe]
    cases hm : readA mm k' with
    | arr fs =>
      simp only [hm]
      exact lookupA_setA_ne pc.props k' k _ h
    | fn f => simp [hm]
    | dispatcher fs => simp [hm]
    | onLoadSeq => simp [hm]
    | other w => simp [hm]
  · simp only [if_neg hpe]
    by_cases hnull : mvalIsNull (readA pc.props k')
    · simp only [if_pos hnull]
      exact lookupA_setA_ne pc.props k' k _ h
    · simp only [if_neg hnull]

theorem foldl_mmStep_not_mem (mm : List (String × MVal)) (ks : List String)
    (pc : PageConf) (k : String) (h : k ∉ ks) :
    lookupA ((ks.foldl (mmStep mm) pc)).props k = lookupA pc.props k := by
  induction ks generalizing pc with
  | nil => rfl
  | cons k' rest ih =>
    rw [List.foldl_cons]
    have hne : k ≠ k' := fun hh => h (hh ▸ List.mem_cons_self k' rest)
    rw [ih _ (fun hm => h (List.mem_cons_of_mem k' hm)), lookupA_mmStep_ne mm pc k k' hne]

theorem foldl_mmStep_preserve (mm : List (String × MVal)) (ks : List String)
    (pc : PageConf) (k : String) (v : Option MVal)
    (h0 : lookupA pc.props k = v)
    (hstep : ∀ pc' : PageConf, lookupA pc'.props k = v →
      lookupA (mmStep mm pc' k).props k = v) :
    lookupA ((ks.foldl (mmStep mm) pc)).props k = v := by
  induction ks generalizing pc with
  | nil => exact h0
  | cons k' rest ih =>
    rw [List.foldl_cons]
    by_cases hk : k' = k
    · subst hk
      exact ih _ (hstep pc h0)
    · exact ih _ ((lookupA_mmStep_ne mm pc k k' (fun hh => hk hh.symm)).trans h0)

theorem foldl_mmStep_common_write (mm : List (String × MVal)) (ks : List String)
    (pc : PageConf) (k : String) (hk : k ∉ PAGE_EVENT) (hnodup : ks.Nodup)
    (hmem : k ∈ ks) (hnull : mvalIsNull (readA pc.props k) = true) :
    lookupA ((ks.foldl (mmStep mm) pc)).props k = some (readA mm k) := by
  induction ks generalizing pc with
  | nil => simp at hmem
  | cons k' rest ih =>
    rw [List.foldl_cons]
    by_cases hkk : k' = k
    · subst hkk
      have hstep : lookupA (mmStep mm pc k').props k' = some (readA mm k') := by
        rw [mmStep, if_neg hk, if_pos hnull]
        exact lookupA_setA_self pc.props k' (readA mm k')
      have hnotin : k' ∉ rest := (List.nodup_cons.mp hnodup).1
      rw [foldl_mmStep_not_mem mm rest _ k' hnotin, hstep]
    · have hne : k ≠ k' := fun hh => hkk hh.symm
      have hmem' : k ∈ rest := by
        rcases List.mem_cons.mp hmem with h1 | h1
        · exact absurd h1.symm hkk
        · exact h1
      have hpres : lookupA (mmStep mm pc k').props k = lookupA pc.props k :=
        lookupA_mmStep_ne mm pc k k' hne
      have hnull' : mvalIsNull (readA (mmStep mm pc k').props k) = true := by
        rw [readA, hpres, ← readA]
        exact hnull
      exact ih _ ((List.nodup_cons.mp hnodup).2) hmem' hnull'

/-! ## The entry point's assigned slots -/

theorem mixinEntry_eq (pc : PageConf) :
    mixinEntry pc = mixMethods (getMixinMethods pc.mixins) (assignedConf pc) := rfl

theorem lookupA_assigned_other (pc : PageConf) (k : String)
    (hol : k ≠ "onLoad") (hb : k ≠ "onBeforeLoad") (ha : k ≠ "onAfterLoad")
    (hn : k ≠ "onNativeLoad") :
    lookupA (assignedConf pc).props k = lookupA pc.props k := by
  rw [assignedConf]
  rw [lookupA_setA_ne _ _ _ _ hn, lookupA_setA_ne _ _ _ _ ha,
    lookupA_setA_ne _ _ _ _ hb, lookupA_setA_ne _ _ _ _ hol]

theorem lookupA_assigned_onLoad (pc : PageConf) :
    lookupA (assignedConf pc).props "onLoad" = some MVal.onLoadSeq := by
  rw [assignedConf]
  rw [lookupA_setA_ne _ _ _ _ (by decide), lookupA_setA_ne _ _ _ _ (by decide),
    lookupA_setA_ne _ _ _ _ (by decide), lookupA_setA_self]

theorem lookupA_assigned_onBeforeLoad (pc : PageConf) :
    lookupA (assignedConf pc).props "onBeforeLoad" =
      some (defaultNoop (readA pc.props "onBeforeLoad")) := by
  rw [assignedConf]
  rw [lookupA_setA_ne _ _ _ _ (by decide), lookupA_setA_ne _ _ _ _ (by decide),
    lookupA_setA_self]

theorem lookupA_assigned_onAfterLoad (pc : PageConf) :
    lookupA (assignedConf pc).props "onAfterLoad" =
      some (defaultNoop (readA pc.props "onAfterLoad")) := by
  rw [assignedConf]
  rw [lookupA_setA_ne _ _ _ _ (by decide), lookupA_setA_self]

theorem lookupA_assigned_onNativeLoad (pc : PageConf) :
    lookupA (assignedConf pc).props "onNativeLoad" =
      some (orNoop (readA pc.props "onLoad")) := by
  rw [assignedConf]
  rw [lookupA_setA_self]

theorem entry_common_write (pc : PageConf) (k : String) (f : Fn)
    (hk : k ∉ PAGE_EVENT) (hb : k ≠ "onBeforeLoad") (ha : k ≠ "onAfterLoad")
    (hn : k ≠ "onNativeLoad")
    (hnull : mvalIsNull (readA pc.props k) = true)
    (hlast : lastMixinMethod pc.mixins k = some f) :
    lookupA (mixinEntry pc).props k = some (MVal.fn f) := by
  rw [mixinEntry_eq, mixMethods]
  have hmm : lookupA (getMixinMethods pc.mixins) k = some (MVal.fn f) := by
    rw [getMixinMethods_common pc.mixins k hk, hlast]
    rfl
  have hmemk : k ∈ keysA (getMixinMethods pc.mixins) :=
    mem_keysA_of_lookupA_some _ k hmm
  have hnull1 : mvalIsNull (readA (assignedConf pc).props k) = true := by
    rw [readA, lookupA_assigned_other pc k (ne_onLoad_of_not_event k hk) hb ha hn, ← readA]
    exact hnull
  rw [foldl_mmStep_common_write (getMixinMethods pc.mixins) _ (assignedConf pc) k hk
    (nodup_keysA_getMixinMethods pc.mixins) hmemk hnull1, readA, hmm]
  rfl

theorem methodsPass_lookup_onLoad (m : Mixin) (acc : List (String × MVal)) :
    lookupA (methodsPass m acc) "onLoad" = lookupA acc "onLoad" := by
  rw [methodsPass_lookup]
  cases hmk : lookupA m.methods "onLoad" with
  | none => rfl
  | some v => cases v <;> simp

theorem getMixinMethods_onLoad (ms : List Mixin) :
    lookupA (getMixinMethods ms) "onLoad" = none := by
  rw [getMixinMethods]
  have : ∀ acc : List (String × MVal),
      lookupA (ms.foldl (fun ret m => lifecyclePass m (methodsPass m ret)) acc) "onLoad" =
        lookupA acc "onLoad" := by
    induction ms with
    | nil => exact fun _ => rfl
    | cons m rest ih =>
      intro acc
      rw [List.foldl_cons, ih, lifecyclePass_lookup_onLoad, methodsPass_lookup_onLoad]
  rw [this]
  rfl

theorem entry_onLoad_slot (pc : PageConf) :
    lookupA (mixinEntry pc).props "onLoad" = some MVal.onLoadSeq := by
  rw [mixinEntry_eq, mixMethods]
  refine foldl_mmStep_preserve _ _ _ _ _ (lookupA_assigned_onLoad pc) ?_
  intro pc' h'
  rw [mmStep, if_pos onLoad_mem_PAGE_EVENT]
  have : readA (getMixinMethods pc.mixins) "onLoad" = MVal.other JsVal.undef := by
    rw [readA, getMixinMethods_onLoad]
    rfl
  rw [this]
  exact h'

theorem entry_slot_fn_preserved (pc : PageConf) (k : String) (hk : k ∉ PAGE_EVENT)
    (v : MVal) (hv : lookupA (assignedConf pc).props k = some v)
    (hnn : mvalIsNull v = false) :
    lookupA (mixinEntry pc).props k = some v := by
  rw [mixinEntry_eq, mixMethods]
  refine foldl_mmStep_preserve _ _ _ _ _ hv ?_
  intro pc' h'
  rw [mmStep, if_neg hk]
  have : readA pc'.props k = v := by rw [readA, h']; rfl
  rw [this, if_neg (by rw [hnn]; exact Bool.false_ne_true)]
  exact h'

theorem defaultNoop_of_not_null (v : MVal) (h : mvalIsNull v = false) :
    defaultNoop v = v := by
  cases v with
  | other w => cases w <;> first | rfl | simp [mvalIsNull] at h
  | fn f => rfl
  | arr fs => rfl
  | dispatcher fs => rfl
  | onLoadSeq => rfl

/-! ## Claims C6 and C8 -/

/-- C6: for every page configuration whose own hook slots are functions
or absent (so the entry point's defaulting yields functions `b`, `n`,
`a`), every invocation of the final configuration's `onLoad` calls
exactly three functions in fixed order — the before-load hook, the
page's original `onLoad` (or no-op), the after-load hook — each with the
same original argument and no return-value threading; mixin-contributed
`onLoad` entries (methods or top-level) never appear. -/
theorem onLoad_sequence_contract (pc : PageConf) (opts : JsVal) (b n a : Fn)
    (hb : defaultNoop (readA pc.props "onBeforeLoad") = MVal.fn b)
    (hn : orNoop (readA pc.props "onLoad") = MVal.fn n)
    (ha : defaultNoop (readA pc.props "onAfterLoad") = MVal.fn a) :
    invokeOnLoad (mixinEntry pc) opts = some [(b, opts), (n, opts), (a, opts)] := by
  have h1 := entry_onLoad_slot pc
  have h2 : lookupA (mixinEntry pc).props "onBeforeLoad" = some (MVal.fn b) :=
    entry_slot_fn_preserved pc _ (by decide) _
      (by rw [lookupA_assigned_onBeforeLoad, hb]) rfl
  have h3 : lookupA (mixinEntry pc).props "onNativeLoad" = some (MVal.fn n) :=
    entry_slot_fn_preserved pc _ (by decide) _
      (by rw [lookupA_assigned_onNativeLoad, hn]) rfl
  have h4 : lookupA (mixinEntry pc).props "onAfterLoad" = some (MVal.fn a) :=
    entry_slot_fn_preserved pc _ (by decide) _
      (by rw [lookupA_assigned_onAfterLoad, ha]) rfl
  rw [invokeOnLoad]
  rw [readA, h1]
  rw [readA, h2, readA, h3, readA, h4]
  rfl

theorem onLoad_sequence_contract_witness :
    invokeOnLoad (mixinEntry pageOnLoadW) (JsVal.num 9) =
      some [(Fn.noop, JsVal.num 9), (Fn.h 51, JsVal.num 9), (Fn.noop, JsVal.num 9)] :=
  onLoad_sequence_contract pageOnLoadW (JsVal.num 9) Fn.noop (Fn.h 51) Fn.noop rfl rfl rfl

/-- C8: whatever the mixins contribute under `onBeforeLoad` or
`onAfterLoad` (methods or top-level), the final configuration's hook
slots hold exactly the page-derived values (the page's own function, or
`noop` when the page left the slot undefined): the entry point populates
them before the generic merge, the merge's first-definer-wins branch
finds them non-null and discards every mixin contribution. -/
theorem before_after_hooks_page_only (pc : PageConf) (b a : Fn)
    (hb : defaultNoop (readA pc.props "onBeforeLoad") = MVal.fn b)
    (ha : defaultNoop (readA pc.props "onAfterLoad") = MVal.fn a) :
    lookupA (mixinEntry pc).props "onBeforeLoad" = some (MVal.fn b) ∧
    lookupA (mixinEntry pc).props "onAfterLoad" = some (MVal.fn a) :=
  ⟨entry_slot_fn_preserved pc _ (by decide) _
      (by rw [lookupA_assigned_onBeforeLoad, hb]) rfl,
    entry_slot_fn_preserved pc _ (by decide) _
      (by rw [lookupA_assigned_onAfterLoad, ha]) rfl⟩

theorem before_after_hooks_page_only_witness :
    lookupA (mixinEntry pageHooksW).props "onBeforeLoad" = some (MVal.fn Fn.noop) ∧
    lookupA (mixinEntry pageHooksW).props "onAfterLoad" = some (MVal.fn Fn.noop) :=
  before_after_hooks_page_only pageHooksW Fn.noop Fn.noop rfl rfl

/-! ## Common methods and dropped lifecycle contributions -/

theorem entry_nonnull_preserve (pc : PageConf) (k : String) (v : MVal)
    (hk : k ∉ PAGE_EVENT) (hn : k ≠ "onNativeLoad")
    (hv : lookupA pc.props k = some v) (hnn : mvalIsNull v = false) :
    lookupA (mixinEntry pc).props k = some v := by
  apply entry_slot_fn_preserved pc k hk v ?_ hnn
  by_cases hb : k = "onBeforeLoad"
  · subst hb
    rw [lookupA_assigned_onBeforeLoad, readA, hv]
    simp [defaultNoop_of_not_null v hnn]
  · by_cases ha : k = "onAfterLoad"
    · subst ha
      rw [lookupA_assigned_onAfterLoad, readA, hv]
      simp [defaultNoop_of_not_null v hnn]
    · rw [lookupA_assigned_other pc k (ne_onLoad_of_not_event k hk) hb ha hn, hv]

theorem lastMixinMethod_pair (m1 m2 : Mixin) (k : String) (f2 : Fn)
    (hm2 : lookupA m2.methods k = some (MVal.fn f2)) :
    lastMixinMethod [m1, m2] k = some f2 := by
  simp [lastMixinMethod, hm2]

theorem collectStep_lookup (m : Mixin) (ret : List (String × MVal)) (E : String)
    (hE2 : E ≠ "onLoad")
    (htop : ∀ g, lookupA m.props E ≠ some (MVal.fn g)) :
    lookupA (lifecyclePass m (methodsPass m ret)) E =
      match lookupA m.methods E with
      | some (MVal.fn f) => some (MVal.fn f)
      | _ => lookupA ret E := by
  rw [lifecyclePass_lookup_noContrib m _ E htop, methodsPass_lookup]
  cases hmk : lookupA m.methods E with
  | none => rfl
  | some v =>
    cases v with
    | fn f => simp [hE2]
    | arr fs => rfl
    | dispatcher fs => rfl
    | onLoadSeq => rfl
    | other w => rfl

theorem collect_fold_shape (ms : List Mixin) (E : String) (hE2 : E ≠ "onLoad")
    (htop : ∀ m ∈ ms, ∀ g, lookupA m.props E ≠ some (MVal.fn g))
    (acc : List (String × MVal))
    (hacc : lookupA acc E = none ∨ ∃ g, lookupA acc E = some (MVal.fn g)) :
    (lookupA (ms.foldl (fun ret m => lifecyclePass m (methodsPass m ret)) acc) E = none ∨
      ∃ g, lookupA (ms.foldl (fun ret m => lifecyclePass m (methodsPass m ret)) acc) E =
        some (MVal.fn g)) ∧
    (((∃ m ∈ ms, ∃ g, lookupA m.methods E = some (MVal.fn g)) ∨
        (∃ g, lookupA acc E = some (MVal.fn g))) →
      ∃ g, lookupA (ms.foldl (fun ret m => lifecyclePass m (methodsPass m ret)) acc) E =
        some (MVal.fn g)) := by
  induction ms generalizing acc with
  | nil =>
    refine ⟨hacc, ?_⟩
    rintro (⟨m, hm, _⟩ | h)
    · simp at hm
    · exact h
  | cons m rest ih =>
    have htopm : ∀ g, lookupA m.props E ≠ some (MVal.fn g) :=
      htop m (List.mem_cons_self m rest)
    have hstep := collectStep_lookup m acc E hE2 htopm
    rw [List.foldl_cons]
    have hacc1 : lookupA (lifecyclePass m (methodsPass m acc)) E = none ∨
        ∃ g, lookupA (lifecyclePass m (methodsPass m acc)) E = some (MVal.fn g) := by
      rw [hstep]
      cases hmk : lookupA m.methods E with
      | none => exact hacc
      | some v =>
        cases v with
        | fn f => exact Or.inr ⟨f, rfl⟩
        | arr fs => exact hacc
        | dispatcher fs => exact hacc
        | onLoadSeq => exact hacc
        | other w => exact hacc
    have ihr := ih (fun m' hm' => htop m' (List.mem_cons_of_mem m hm')) _ hacc1
    refine ⟨ihr.1, ?_⟩
    rintro (⟨m', hm', g, hg⟩ | ⟨g, hg⟩)
    · rcases List.mem_cons.mp hm' with h1 | h1
      · subst h1
        refine ihr.2 (Or.inr ?_)
        rw [hstep, hg]
        exact ⟨g, rfl⟩
      · exact ihr.2 (Or.inl ⟨m', h1, g, hg⟩)
    · refine ihr.2 (Or.inr ?_)
      rw [hstep]
      cases hmk : lookupA m.methods E with
      | none => exact ⟨g, hg⟩
      | some v =>
        cases v with
        | fn f => exact ⟨f, rfl⟩
        | arr fs => exact ⟨g, hg⟩
        | dispatcher fs => exact ⟨g, hg⟩
        | onLoadSeq => exact ⟨g, hg⟩
        | other w => exact ⟨g, hg⟩

/-- C4 fails on the code: with mixins `[m1, m2]` both defining the
non-lifecycle name `hello` and the page leaving it undefined, the final
merged property is `m2`'s function `h 2` (the collector's last write),
not the first mixin's `h 1` as the claim states. -/
theorem first_mixin_wins_counterexample :
    readA (mixinEntry pageFirstLast).props "hello" = MVal.fn (Fn.h 2) ∧
    MVal.fn (Fn.h 2) ≠ MVal.fn (Fn.h 1) :=
  ⟨rfl, by decide⟩

/-- C4 amended: for a method name that is neither a recognized lifecycle
event name nor one of the three reserved slots the entry point itself
populates (`onBeforeLoad`, `onAfterLoad`, `onNativeLoad`), if the page's
own value is null/undefined, the final merged property is the value of
the **last** mixin (in list order) that defines the name as a callable
in its `methods` mapping; earlier mixins are overwritten by the
collector. -/
theorem last_mixin_wins_common_method (pc : PageConf) (k : String) (f : Fn)
    (hk : k ∉ PAGE_EVENT) (hb : k ≠ "onBeforeLoad") (ha : k ≠ "onAfterLoad")
    (hn : k ≠ "onNativeLoad")
    (hnull : mvalIsNull (readA pc.props k) = true)
    (hlast : lastMixinMethod pc.mixins k = some f) :
    lookupA (mixinEntry pc).props k = some (MVal.fn f) :=
  entry_common_write pc k f hk hb ha hn hnull hlast

theorem last_mixin_wins_common_method_witness :
    lookupA (mixinEntry pageLastWins).props "greet" = some (MVal.fn (Fn.h 22)) :=
  last_mixin_wins_common_method pageLastWins "greet" (Fn.h 22)
    (by decide) (by decide) (by decide) (by decide) rfl rfl

/-- C5 fails on the code at the reserved name `onBeforeLoad`: both
mixins define it in `methods`, the page does not define it, yet the
merged property is the no-op the entry point installed, not the second
mixin's `h 32`. -/
theorem reserved_name_counterexample :
    readA (mixinEntry pageReserved).props "onBeforeLoad" = MVal.fn Fn.noop ∧
    MVal.fn Fn.noop ≠ MVal.fn (Fn.h 32) :=
  ⟨rfl, by decide⟩

/-- C5 amended: (i) for a non-lifecycle name outside the reserved trio
(`onBeforeLoad`, `onAfterLoad`, `onNativeLoad`), defined by mixins `m1`
then `m2` with no page-level definition, the merged property is `m2`'s
value, never `m1`'s; (ii) for a non-lifecycle name other than
`onNativeLoad` that the page defines with a non-null value, the merged
property is the page's value unchanged. -/
theorem common_method_precedence :
    (∀ (pc : PageConf) (m1 m2 : Mixin) (k : String) (f1 f2 : Fn),
      pc.mixins = [m1, m2] →
      lookupA m1.methods k = some (MVal.fn f1) →
      lookupA m2.methods k = some (MVal.fn f2) →
      k ∉ PAGE_EVENT → k ≠ "onBeforeLoad" → k ≠ "onAfterLoad" → k ≠ "onNativeLoad" →
      mvalIsNull (readA pc.props k) = true →
      lookupA (mixinEntry pc).props k = some (MVal.fn f2)) ∧
    (∀ (pc : PageConf) (k : String) (v : MVal),
      k ∉ PAGE_EVENT → k ≠ "onNativeLoad" →
      (∃ m ∈ pc.mixins, ∃ g, lookupA m.methods k = some (MVal.fn g)) →
      lookupA pc.props k = some v → mvalIsNull v = false →
      lookupA (mixinEntry pc).props k = some v) := by
  constructor
  · intro pc m1 m2 k f1 f2 hmx hm1 hm2 hk hb ha hn hnull
    exact entry_common_write pc k f2 hk hb ha hn hnull
      (by rw [hmx]; exact lastMixinMethod_pair m1 m2 k f2 hm2)
  · intro pc k v hk hn _ hv hnn
    exact entry_nonnull_preserve pc k v hk hn hv hnn

/-- C10: when a recognized lifecycle name `E ≠ onLoad` appears only in
mixins' `methods` mappings (as a single callable) and no mixin has a
callable top-level property under `E`, the collector accumulates a
single function (never an array), the lifecycle branch of the merge
skips it, and the final configuration's property under `E` is exactly
what the raw page had — the mixin's function is silently dropped. -/
theorem methods_only_lifecycle_dropped (pc : PageConf) (E : String)
    (hE : E ∈ PAGE_EVENT) (hE2 : E ≠ "onLoad")
    (htop : ∀ m ∈ pc.mixins, mvalIsFunction (readA m.props E) = false)
    (hmeth : ∃ m ∈ pc.mixins, ∃ g, lookupA m.methods E = some (MVal.fn g)) :
    (∃ g, lookupA (getMixinMethods pc.mixins) E = some (MVal.fn g)) ∧
    lookupA (mixinEntry pc).props E = lookupA pc.props E := by
  have htop' : ∀ m ∈ pc.mixins, ∀ g, lookupA m.props E ≠ some (MVal.fn g) := by
    intro m hm g hg
    have := htop m hm
    rw [readA, hg] at this
    exact absurd this (by simp [mvalIsFunction])
  have hshape := collect_fold_shape pc.mixins E hE2 htop' [] (Or.inl rfl)
  have hfn : ∃ g, lookupA (getMixinMethods pc.mixins) E = some (MVal.fn g) := by
    rw [getMixinMethods]
    exact hshape.2 (Or.inl hmeth)
  refine ⟨hfn, ?_⟩
  have hb : E ≠ "onBeforeLoad" := fun h => absurd (h ▸ hE) (by decide)
  have ha : E ≠ "onAfterLoad" := fun h => absurd (h ▸ hE) (by decide)
  have hn : E ≠ "onNativeLoad" := fun h => absurd (h ▸ hE) (by decide)
  rw [mixinEntry_eq, mixMethods]
  refine foldl_mmStep_preserve _ _ _ _ _
    (lookupA_assigned_other pc E hE2 hb ha hn) ?_
  intro pc' h'
  rw [mmStep, if_pos hE]
  obtain ⟨g, hg⟩ := hfn
  have : readA (getMixinMethods pc.mixins) E = MVal.fn g := by
    rw [readA, hg]
    rfl
  rw [this]
  exact h'

theorem methods_only_lifecycle_dropped_witness :
    (∃ g, lookupA (getMixinMethods pageDropped.mixins) "onShow" = some (MVal.fn g)) ∧
    lookupA (mixinEntry pageDropped).props "onShow" = lookupA pageDropped.props "onShow" :=
  methods_only_lifecycle_dropped pageDropped "onShow" (by decide) (by decide)
    (by intro m hm; simp [pageDropped] at hm; rw [hm]; rfl)
    ⟨{ data := [], methods := [("onShow", MVal.fn (Fn.h 41))], props := [] },
      by simp [pageDropped], Fn.h 41, rfl⟩

/-! ## Frame property: the entry point never mutates a mixin (claim C9) -/

theorem getD_set_ne (l : List (List Fn)) (r i : Nat) (v : List Fn) (h : i ≠ r) :
    (l.set r v).getD i [] = l.getD i [] := by
  rw [List.getD_eq_getElem?_getD, List.getD_eq_getElem?_getD,
    List.getElem?_set_ne (fun hh => h hh.symm)]

theorem getD_prefix {l1 l2 : List (List Fn)} (h : l1 <+: l2) (i : Nat)
    (hi : i < l1.length) : l2.getD i [] = l1.getD i [] := by
  obtain ⟨t, rfl⟩ := h
  rw [List.getD_eq_getElem?_getD, List.getD_eq_getElem?_getD, List.getElem?_append,
    if_pos hi]

theorem readS_arrRef (mm : List (String × SVal)) (k : String) (r : Nat)
    (h : readS mm k = SVal.arrRef r) : lookupA mm k = some (SVal.arrRef r) := by
  cases hl : lookupA mm k with
  | none =>
    rw [readS, hl] at h
    simp at h
  | some v =>
    rw [readS, hl] at h
    exact congrArg some h

theorem methodsPassSt_fold_arrRef (m : SMixin) (ks : List String)
    (acc : List (String × SVal)) (k : String) (r : Nat)
    (h : lookupA (ks.foldl (fun rr kk =>
      match lookupA m.methods kk with
      | some (SVal.fn f) => if kk = "onLoad" then rr else setA rr kk (SVal.fn f)
      | _ => rr) acc) k = some (SVal.arrRef r)) :
    lookupA acc k = some (SVal.arrRef r) := by
  induction ks generalizing acc with
  | nil => exact h
  | cons k' rest ih =>
    rw [List.foldl_cons] at h
    have h1 := ih _ h
    cases hmk : lookupA m.methods k' with
    | none =>
      simp only [hmk] at h1
      exact h1
    | some v =>
      cases v with
      | fn f =>
        by_cases hol : k' = "onLoad"
        · simp only [hmk, if_pos hol] at h1
          exact h1
        · simp only [hmk, if_neg hol] at h1
          by_cases hk : k = k'
          · subst hk
            rw [lookupA_setA_self] at h1
            exact absurd h1 (by simp)
          · rw [lookupA_setA_ne _ _ _ _ hk] at h1
            exact h1
      | arrRef r' =>
        simp only [hmk] at h1
        exact h1
      | dispatcherRef r' =>
        simp only [hmk] at h1
        exact h1
      | onLoadSeqS =>
        simp only [hmk] at h1
        exact h1
      | other w =>
        simp only [hmk] at h1
        exact h1

theorem methodsPassSt_arrRef (m : SMixin) (acc : List (String × SVal)) (k : String) (r : Nat)
    (h : lookupA (methodsPassSt m acc) k = some (SVal.arrRef r)) :
    lookupA acc k = some (SVal.arrRef r) :=
  methodsPassSt_fold_arrRef m (keysA m.methods) acc k r h

theorem lifecyclePassSt_fold_inv (m : SMixin) (base : ArrStore) (ks : List String)
    (st : ArrStore × List (String × SVal))
    (hpre : base.cells <+: st.1.cells)
    (hrefs : ∀ k r, lookupA st.2 k = some (SVal.arrRef r) →
      base.cells.length ≤ r ∧ r < st.1.cells.length) :
    base.cells <+: (ks.foldl (fun acc kk =>
      match lookupA m.props kk with
      | some (SVal.fn f) =>
        if kk = "onLoad" then acc
        else
          match lookupA acc.2 kk with
          | some (SVal.arrRef r) =>
            let al := allocArr acc.1 (readArr acc.1 r ++ [f])
            (al.1, setA acc.2 kk (SVal.arrRef al.2))
          | _ =>
            let al := allocArr acc.1 [f]
            (al.1, setA acc.2 kk (SVal.arrRef al.2))
      | _ => acc) st).1.cells ∧
    (∀ k r, lookupA (ks.foldl (fun acc kk =>
      match lookupA m.props kk with
      | some (SVal.fn f) =>
        if kk = "onLoad" then acc
        else
          match lookupA acc.2 kk with
          | some (SVal.arrRef r) =>
            let al := allocArr acc.1 (readArr acc.1 r ++ [f])
            (al.1, setA acc.2 kk (SVal.arrRef al.2))
          | _ =>
            let al := allocArr acc.1 [f]
            (al.1, setA acc.2 kk (SVal.arrRef al.2))
      | _ => acc) st).2 k = some (SVal.arrRef r) →
      base.cells.length ≤ r ∧
        r < (ks.foldl (fun acc kk =>
          match lookupA m.props kk with
          | some (SVal.fn f) =>
            if kk = "onLoad" then acc
            else
              match lookupA acc.2 kk with
              | some (SVal.arrRef r) =>
                let al := allocArr acc.1 (readArr acc.1 r ++ [f])
                (al.1, setA acc.2 kk (SVal.arrRef al.2))
              | _ =>
                let al := allocArr acc.1 [f]
                (al.1, setA acc.2 kk (SVal.arrRef al.2))
          | _ => acc) st).1.cells.length) := by
  induction ks generalizing st with
  | nil => exact ⟨hpre, hrefs⟩
  | cons k' rest ih =>
    rw [List.foldl_cons]
    have hsetcase : ∀ (v0 : List Fn),
        base.cells <+: (allocArr st.1 v0).1.cells ∧
        (∀ k r, lookupA (setA st.2 k' (SVal.arrRef (allocArr st.1 v0).2)) k =
            some (SVal.arrRef r) →
          base.cells.length ≤ r ∧ r < (allocArr st.1 v0).1.cells.length) := by
      intro v0
      constructor
      · exact hpre.trans (List.prefix_append st.1.cells [v0])
      · intro k r hkr
        by_cases hk : k = k'
        · subst hk
          rw [lookupA_setA_self] at hkr
          have : (allocArr st.1 v0).2 = r := by
            have := congrArg (fun o => o.getD (SVal.other JsVal.undef)) hkr
            simpa using this
          rw [← this]
          refine ⟨hpre.length_le, ?_⟩
          show st.1.cells.length < (st.1.cells ++ [v0]).length
          simp
        · rw [lookupA_setA_ne _ _ _ _ hk] at hkr
          obtain ⟨h1, h2⟩ := hrefs k r hkr
          refine ⟨h1, lt_of_lt_of_le h2 ?_⟩
          show st.1.cells.length ≤ (st.1.cells ++ [v0]).length
          simp
    cases hmk : lookupA m.props k' with
    | none => exact ih st hpre hrefs
    | some v =>
      cases v with
      | fn f =>
        by_cases hol : k' = "onLoad"
        · simp only [hmk, if_pos hol]
          exact ih st hpre hrefs
        · simp only [hmk, if_neg hol]
          cases hacc : lookupA st.2 k' with
          | none =>
            simp only [hacc]
            exact ih _ (hsetcase [f]).1 (hsetcase [f]).2
          | some w =>
            cases w with
            | arrRef r0 =>
              simp only [hacc]
              exact ih _ (hsetcase (readArr st.1 r0 ++ [f])).1
                (hsetcase (readArr st.1 r0 ++ [f])).2
            | fn g =>
              simp only [hacc]
              exact ih _ (hsetcase [f]).1 (hsetcase [f]).2
            | dispatcherRef r0 =>
              simp only [hacc]
              exact ih _ (hsetcase [f]).1 (hsetcase [f]).2
            | onLoadSeqS =>
              simp only [hacc]
              exact ih _ (hsetcase [f]).1 (hsetcase [f]).2
            | other u =>
              simp only [hacc]
              exact ih _ (hsetcase [f]).1 (hsetcase [f]).2
      | arrRef r0 =>
        simp only [hmk]
        exact ih st hpre hrefs
      | dispatcherRef r0 =>
        simp only [hmk]
        exact ih st hpre hrefs
      | onLoadSeqS =>
        simp only [hmk]
        exact ih st hpre hrefs
      | other u =>
        simp only [hmk]
        exact ih st hpre hrefs

theorem lifecyclePassSt_inv (m : SMixin) (base : ArrStore)
    (st : ArrStore × List (String × SVal))
    (hpre : base.cells <+: st.1.cells)
    (hrefs : ∀ k r, lookupA st.2 k = some (SVal.arrRef r) →
      base.cells.length ≤ r ∧ r < st.1.cells.length) :
    base.cells <+: (lifecyclePassSt m st).1.cells ∧
    ∀ k r, lookupA (lifecyclePassSt m st).2 k = some (SVal.arrRef r) →
      base.cells.length ≤ r ∧ r < (lifecyclePassSt m st).1.cells.length := by
  rw [lifecyclePassSt]
  exact lifecyclePassSt_fold_inv m base PAGE_EVENT st hpre hrefs

theorem getMixinMethodsSt_inv (s : ArrStore) (ms : List SMixin) :
    s.cells <+: (getMixinMethodsSt s ms).1.cells ∧
    ∀ k r, lookupA (getMixinMethodsSt s ms).2 k = some (SVal.arrRef r) →
      s.cells.length ≤ r ∧ r < (getMixinMethodsSt s ms).1.cells.length := by
  rw [getMixinMethodsSt]
  have main : ∀ st : ArrStore × List (String × SVal),
      s.cells <+: st.1.cells →
      (∀ k r, lookupA st.2 k = some (SVal.arrRef r) →
        s.cells.length ≤ r ∧ r < st.1.cells.length) →
      s.cells <+: (ms.foldl (fun st m => lifecyclePassSt m (st.1, methodsPassSt m st.2)) st).1.cells ∧
      ∀ k r, lookupA (ms.foldl (fun st m => lifecyclePassSt m (st.1, methodsPassSt m st.2)) st).2 k =
          some (SVal.arrRef r) →
        s.cells.length ≤ r ∧
          r < (ms.foldl (fun st m => lifecyclePassSt m (st.1, methodsPassSt m st.2)) st).1.cells.length := by
    induction ms with
    | nil => exact fun st hpre hrefs => ⟨hpre, hrefs⟩
    | cons m rest ih =>
      intro st hpre hrefs
      rw [List.foldl_cons]
      have hmp : ∀ k r, lookupA (methodsPassSt m st.2) k = some (SVal.arrRef r) →
          s.cells.length ≤ r ∧ r < st.1.cells.length :=
        fun k r h => hrefs k r (methodsPassSt_arrRef m st.2 k r h)
      have hlc := lifecyclePassSt_inv m s (st.1, methodsPassSt m st.2) hpre hmp
      exact ih _ hlc.1 hlc.2
  exact main (s, []) (List.prefix_refl s.cells) (by intro k r h; simp [lookupA] at h)

theorem mixMethodsSt_fold_frame (mm : List (String × SVal)) (n : Nat)
    (hrefs : ∀ k r, lookupA mm k = some (SVal.arrRef r) → n ≤ r)
    (ks : List String) (st : ArrStore × SPageConf) :
    ∀ i, i < n →
      ((ks.foldl (mmStepSt mm) st).1).cells.getD i [] = st.1.cells.getD i [] := by
  induction ks generalizing st with
  | nil => exact fun i _ => rfl
  | cons k' rest ih =>
    intro i hi
    rw [List.foldl_cons]
    have hstep : (mmStepSt mm st k').1.cells.getD i [] = st.1.cells.getD i [] := by
      rw [mmStepSt]
      by_cases hpe : k' ∈ PAGE_EVENT
      · simp only [if_pos hpe]
        cases hm : readS mm k' with
        | arrRef r =>
          have hr : n ≤ r := hrefs k' r (readS_arrRef mm k' r hm)
          simp only [hm]
          cases hp : readS st.2.props k' with
          | fn f =>
            simp only [hp]
            exact getD_set_ne st.1.cells r i _ (fun h => absurd hi (by rw [h]; exact not_lt.mpr hr))
          | arrRef r2 => simp only [hp]
          | dispatcherRef r2 => simp only [hp]
          | onLoadSeqS => simp only [hp]
          | other w => simp only [hp]
        | fn f => simp only [hm]
        | dispatcherRef r2 => simp only [hm]
        | onLoadSeqS => simp only [hm]
        | other w => simp only [hm]
      · simp only [if_neg hpe]
        by_cases hnull : svalIsNull (readS st.2.props k') <;> simp [hnull]
    rw [ih (mmStepSt mm st k') i hi, hstep]

/-- C9: the entry point never mutates a mixin: every array cell that
existed before it ran — in particular every array a mixin owns — holds
the same value afterwards, and every lifecycle-handler array the
collector accumulates is freshly allocated (its reference lies past the
pre-existing store), never aliased to mixin-owned storage.  Mixins'
`data`, `methods` and top-level properties are only read (the value
model carries them unchanged); the store write in `mmStepSt` (the
`push`) and the allocations in `lifecyclePassSt` are the engine's only
array operations, and they stay within the freshly allocated cells. -/
theorem entry_point_mutates_no_mixin (s : ArrStore) (pc : SPageConf) :
    (∀ i, i < s.cells.length →
      ((mixinEntrySt s pc).1).cells.getD i [] = s.cells.getD i []) ∧
    (∀ k r, lookupA (getMixinMethodsSt s pc.mixins).2 k = some (SVal.arrRef r) →
      s.cells.length ≤ r) := by
  obtain ⟨hpre, hrefs⟩ := getMixinMethodsSt_inv s pc.mixins
  constructor
  · intro i hi
    rw [mixinEntrySt, mixMethodsSt]
    rw [mixMethodsSt_fold_frame (getMixinMethodsSt s pc.mixins).2 s.cells.length
      (fun k r h => (hrefs k r h).1) _ _ i hi]
    exact getD_prefix hpre i hi
  · exact fun k r h => (hrefs k r h).1

theorem entry_point_mutates_no_mixin_witness :
    ((mixinEntrySt storeW spageW).1).cells.getD 0 [] = storeW.cells.getD 0 [] ∧
    storeW.cells.length ≤ 1 :=
  ⟨(entry_point_mutates_no_mixin storeW spageW).1 0 (by decide),
    (entry_point_mutates_no_mixin storeW spageW).2 "onShow" 1 rfl⟩

theorem common_method_precedence_witness :
    lookupA (mixinEntry pagePingOwn).props "ping" = some (MVal.fn (Fn.h 33)) :=
  common_method_precedence.2 pagePingOwn "ping" (MVal.fn (Fn.h 33)) (by decide) (by decide)
    ⟨{ data := [], methods := [("ping", MVal.fn (Fn.h 34))], props := [] },
      by simp [pagePingOwn], Fn.h 34, rfl⟩ rfl rfl

end MixinSpec
